import Mathlib

/-!
Verification of the FocusForge planning core (`project/planner/`):
priority strategies (`priority_strategy.py`), schedulers (`schedulers.py`),
planners (`base_planner.py`) and the entry point (`daily_plan.py`).

Shallow embedding conventions:
* `datetime` instants and `timedelta` values are minutes, represented as `Int`;
  all comparisons in the source are order comparisons on datetimes, which this
  preserves exactly.
* Calendar dates (`deadline`, `date.today()`) are day numbers (`Int`); the
  wall-clock date is threaded through as an explicit `today` parameter.
* Python float scores are represented as exact rationals `ℚ`; the score
  formulas use only field arithmetic, so the rational model is the exact
  idealization of the source formulas.
* Optional / possibly-missing Task attributes are `Option` fields; the
  source reads them via `getattr(task, name, default)` combined with `or`
  for falsy coercion, which is modelled explicitly at each use site.
* The unbounded `while` loop of `PomodoroScheduler.schedule` is embedded
  with an explicit fuel parameter (`Option` result; `none` = out of fuel);
  fuel sufficiency for `work_minutes ≥ 1` is proved as a theorem.
-/

namespace FocusForge

/-- Task record (`core/task.py` data holder; the planner reads it via
`getattr` with per-field defaults, so every attribute the planning core
touches is embedded, optional ones as `Option`). -/
structure Task where
  name : String
  duration : Option Int := none
  category : Option String := none
  difficulty : Option Int := none
  priority : Option Int := none
  deadline : Option Int := none
  must_do_today : Bool := false
  completed : Bool := false
  pomodoro : Bool := false
deriving DecidableEq, Repr

instance : Inhabited Task := ⟨⟨"", none, none, none, none, none, false, false, false⟩⟩

/-- Embedding of `PlannedBlock` from `base_planner.py`: a (task, start, end) triple.
The `end` field is named `stop` because `end` is a Lean keyword. -/
structure PlannedBlock where
  task : Task
  start : Int
  stop : Int
deriving DecidableEq, Repr

/-- Reading `getattr(task, "duration", 0) or 0`: a missing/None (and falsy 0)
duration reads as 0. -/
def effDuration (task : Task) : Int :=
  match task.duration with
  | none => 0
  | some v => v

/-- Reading `getattr(task, "difficulty", 3) or 3`: missing/None difficulty reads
as 3; a falsy difficulty of 0 is also coerced to 3 by Python `or`. -/
def effDifficulty (task : Task) : Int :=
  match task.difficulty with
  | none => 3
  | some d => if d = 0 then 3 else d

/-- The `category_weights` dict lookup in `DeadlinePriority.score`,
with `.get(category, 1.0)` default for unknown categories. -/
def category_weights : Option String → ℚ
  | some "study" => 3
  | some "admin" => 1
  | some "recovery" => 2
  | some "other" => 1
  | none => 1
  | _ => 1

/-- Embedding of `DeadlinePriority.score` from `priority_strategy.py`.
`today` models `date.today()`. -/
def DeadlinePriority.score (today : Int) (task : Task) : ℚ :=
  let urgency : ℚ :=
    match task.deadline with
    | some deadline => 1 / ((max (deadline - today) 1 : Int) : ℚ)
    | none => 0
  let difficulty : Int := effDifficulty task
  let importance : ℚ := category_weights task.category
  let duration : Int := effDuration task
  let duration_hours : ℚ := (duration : ℚ) / 60
  let duration_penalty : ℚ := (3 / 10) * duration_hours
  let score : ℚ := 4 * urgency + 3 * importance + 2 * (difficulty : ℚ) - duration_penalty
  if task.must_do_today then score + 10 else score

/-- The `max(1, min(5, energy_level))` clamp from `EnergyAwarePriority.__init__`. -/
def energyClamp (energy_level : Int) : Int :=
  max 1 (min 5 energy_level)

/-- Embedding of `EnergyAwarePriority.score` from `priority_strategy.py`; `energy_level`
is the already-clamped value stored by the constructor. -/
def EnergyAwarePriority.score (energy_level : Int) (today : Int) (task : Task) : ℚ :=
  let difficulty : Int := max 1 (min 5 (effDifficulty task))
  let diff : Int := |difficulty - energy_level|
  let compatibility : ℚ := max 0 ((5 : ℚ) - (diff : ℚ))
  let urgency : ℚ :=
    match task.deadline with
    | some deadline => 1 / ((max (deadline - today) 1 : Int) : ℚ)
    | none => 0
  (5 / 2) * compatibility + 3 * urgency

/-- Loop of `SequentialScheduler.schedule`: walks the tasks keeping the
cursor `current_start` and the accumulated `blocks`. -/
def seqGo (day_end : Int) : List Task → Int → List PlannedBlock → List PlannedBlock
  | [], _, blocks => blocks
  | task :: ts, current_start, blocks =>
    let duration_minutes := effDuration task
    if duration_minutes ≤ 0 then
      seqGo day_end ts current_start blocks
    else
      let block_end := current_start + duration_minutes
      if block_end > day_end then
        blocks
      else
        seqGo day_end ts block_end (blocks ++ [⟨task, current_start, block_end⟩])

/-- Embedding of `SequentialScheduler.schedule` from `schedulers.py`. -/
def SequentialScheduler.schedule (tasks : List Task) (day_start day_end : Int) :
    List PlannedBlock :=
  seqGo day_end tasks day_start []

/-- Inner `while remaining_minutes > 0` loop of `PomodoroScheduler.schedule`,
for one task. `w`/`b` are `work_minutes`/`break_minutes`, `de` is `day_end`.
The result is `(blocks, current_start, returned)` where `returned = true`
means the source hit a `return blocks` (window exhausted) and the whole
schedule call stops. The `fuel` parameter bounds the number of loop
iterations; `none` means the bound was hit (the source loop would still be
running). -/
def pomLoop (w b de : Int) (task : Task) :
    ℕ → Int → Int → List PlannedBlock → Option (List PlannedBlock × Int × Bool)
  | 0, remaining_minutes, current_start, blocks =>
    if remaining_minutes ≤ 0 then some (blocks, current_start, false) else none
  | fuel + 1, remaining_minutes, current_start, blocks =>
    if remaining_minutes ≤ 0 then some (blocks, current_start, false)
    else
      let block_end := current_start + w
      if block_end > de then some (blocks, current_start, true)
      else
        let blocks := blocks ++ [⟨task, current_start, block_end⟩]
        let remaining := remaining_minutes - w
        if remaining > 0 then
          let break_end := block_end + b
          if break_end > de then some (blocks, block_end, true)
          else pomLoop w b de task fuel remaining break_end blocks
        else pomLoop w b de task fuel remaining block_end blocks

/-- Outer `for task in tasks` loop of `PomodoroScheduler.schedule`.
Per-task fuel is `remaining_minutes.toNat`, which suffices whenever
`work_minutes ≥ 1` (proved below). -/
def pomGo (w b de : Int) : List Task → Int → List PlannedBlock → Option (List PlannedBlock)
  | [], _, blocks => some blocks
  | task :: ts, current_start, blocks =>
    let remaining_minutes := effDuration task
    if remaining_minutes ≤ 0 then pomGo w b de ts current_start blocks
    else
      match pomLoop w b de task remaining_minutes.toNat remaining_minutes current_start blocks with
      | none => none
      | some (blocks, current_start, returned) =>
        if returned then some blocks else pomGo w b de ts current_start blocks

/-- Embedding of `PomodoroScheduler.schedule` from `schedulers.py` (constructor
parameters `work_minutes`, `break_minutes` passed explicitly).
`none` models the fuel bound being hit, which cannot happen for
`work_minutes ≥ 1`. -/
def PomodoroScheduler.schedule (work_minutes break_minutes : Int)
    (tasks : List Task) (day_start day_end : Int) : Option (List PlannedBlock) :=
  pomGo work_minutes break_minutes day_end tasks day_start []

/-- Embedding of `Planner._sort_tasks` from `base_planner.py`:
`sorted(tasks, key=score, reverse=True)`, i.e. the stable descending sort
by score (any stable sort computes the same list, so `mergeSort` with
`le a b := score b ≤ score a` is the exact model of Python's stable sort
with `reverse=True`). -/
def Planner._sort_tasks (score : Task → ℚ) (tasks : List Task) : List Task :=
  tasks.mergeSort (fun a b => decide (score b ≤ score a))

/-- Embedding of `StudyPlanner.generate`: DeadlinePriority + default SequentialScheduler. -/
def StudyPlanner.generate (today : Int) (tasks : List Task) (day_start day_end : Int) :
    List PlannedBlock :=
  SequentialScheduler.schedule (Planner._sort_tasks (DeadlinePriority.score today) tasks)
    day_start day_end

/-- Embedding of `EnergyPlanner.generate`: EnergyAwarePriority (clamped energy level) +
default SequentialScheduler. -/
def EnergyPlanner.generate (energy_level : Int) (today : Int) (tasks : List Task)
    (day_start day_end : Int) : List PlannedBlock :=
  SequentialScheduler.schedule
    (Planner._sort_tasks (EnergyAwarePriority.score (energyClamp energy_level) today) tasks)
    day_start day_end

/-- Indexed interleaving loop of `BalancedPlanner.generate`
(`for i, task in enumerate(regular_sorted)` with `N = 2` and
`idx_recovery` into `recovery_tasks`; trailing
`combined.extend(recovery_tasks[idx_recovery:])`). -/
def balancedGo (recovery_tasks : List Task) :
    List Task → ℕ → ℕ → List Task
  | [], _, idx_recovery => recovery_tasks.drop idx_recovery
  | task :: ts, i, idx_recovery =>
    if (i + 1) % 2 = 0 ∧ idx_recovery < recovery_tasks.length then
      task :: recovery_tasks.getD idx_recovery default ::
        balancedGo recovery_tasks ts (i + 1) (idx_recovery + 1)
    else
      task :: balancedGo recovery_tasks ts (i + 1) idx_recovery

/-- The `combined` task list built by `BalancedPlanner.generate` before
delegation: partition on `category == "recovery"`, sort the regular tasks
by the configured strategy, interleave. -/
def BalancedPlanner.combined (score : Task → ℚ) (tasks : List Task) : List Task :=
  let recovery_tasks := tasks.filter (fun t => t.category == some "recovery")
  let regular_tasks := tasks.filter (fun t => !(t.category == some "recovery"))
  let regular_sorted := Planner._sort_tasks score regular_tasks
  balancedGo recovery_tasks regular_sorted 0 0

/-- Embedding of `BalancedPlanner.generate` with an arbitrary scheduler (the class takes
any `Scheduler`; the default is `SequentialScheduler`). -/
def BalancedPlanner.generate (score : Task → ℚ)
    (scheduler : List Task → Int → Int → List PlannedBlock)
    (tasks : List Task) (day_start day_end : Int) : List PlannedBlock :=
  scheduler (BalancedPlanner.combined score tasks) day_start day_end

/-- Model of Python `str.lower()` (characterwise lowercasing; the mode
strings involved are ASCII, where `Char.toLower` agrees with Python). -/
def str_lower (s : String) : String :=
  ⟨s.data.map Char.toLower⟩

/-- The closed set of planners `get_planner` can return
(`StudyPlanner() | EnergyPlanner(energy_level) | BalancedPlanner()`). -/
inductive PlannerChoice where
  | study : PlannerChoice
  | energy (energy_level : Int) : PlannerChoice
  | balanced : PlannerChoice
deriving DecidableEq, Repr

/-- Embedding of `get_planner` from `daily_plan.py`: lowercases the mode and selects a
planner, raising `ValueError` (modelled as `Except.error`) otherwise. -/
def get_planner (mode : String) (energy_level : Int) : Except String PlannerChoice :=
  let mode := str_lower mode
  if mode = "study" then Except.ok PlannerChoice.study
  else if mode = "energy" then Except.ok (PlannerChoice.energy energy_level)
  else if mode = "balanced" then Except.ok PlannerChoice.balanced
  else Except.error ("Unknown planner mode '" ++ mode ++ "'. Use 'study', 'energy', or 'balanced'.")

/-- Dispatch of `planner.generate(...)` over the planner returned by
`get_planner` (each with its default `SequentialScheduler`). -/
def Planner.generate (today : Int) : PlannerChoice → List Task → Int → Int → List PlannedBlock
  | PlannerChoice.study, tasks, ds, de => StudyPlanner.generate today tasks ds de
  | PlannerChoice.energy lvl, tasks, ds, de => EnergyPlanner.generate lvl today tasks ds de
  | PlannerChoice.balanced, tasks, ds, de =>
    BalancedPlanner.generate (DeadlinePriority.score today) SequentialScheduler.schedule tasks ds de

/-- Embedding of `generate_daily_plan` from `daily_plan.py`, after the `HH:MM` strings
have been parsed to instants (`start_dt`, `end_dt`, minutes of today).
The source performs no validation of the window: it selects the planner
and delegates directly. -/
def generate_daily_plan (today : Int) (tasks : List Task) (mode : String)
    (energy_level : Int) (start_dt end_dt : Int) : Except String (List PlannedBlock) :=
  match get_planner mode energy_level with
  | Except.error e => Except.error e
  | Except.ok planner => Except.ok (Planner.generate today planner tasks start_dt end_dt)

/-- C9: `get_planner` matches the mode string case-insensitively: it
lowercases its argument before comparison, so any case variant of
"study"/"energy"/"balanced" (i.e. any string whose lowercasing is one of
the three) returns the corresponding planner, and it signals a
`ValueError` exactly when the lowercased mode is none of those three. -/
theorem get_planner_case_insensitive (mode : String) (energy_level : Int) :
    (str_lower mode = "study" →
      get_planner mode energy_level = Except.ok PlannerChoice.study) ∧
    (str_lower mode = "energy" →
      get_planner mode energy_level = Except.ok (PlannerChoice.energy energy_level)) ∧
    (str_lower mode = "balanced" →
      get_planner mode energy_level = Except.ok PlannerChoice.balanced) ∧
    ((∃ msg, get_planner mode energy_level = Except.error msg) ↔
      ¬(str_lower mode = "study" ∨ str_lower mode = "energy" ∨ str_lower mode = "balanced")) := by
  unfold get_planner
  by_cases h1 : str_lower mode = "study" <;>
    by_cases h2 : str_lower mode = "energy" <;>
      by_cases h3 : str_lower mode = "balanced" <;>
        simp [h1, h2, h3]

/-- Witness for C9 at concrete inputs: an upper-case variant selects the
study planner, and an unknown mode yields an error. -/
theorem get_planner_case_insensitive_witness :
    get_planner "STUDY" 3 = Except.ok PlannerChoice.study ∧
    (∃ msg, get_planner "weird" 3 = Except.error msg) :=
  ⟨(get_planner_case_insensitive "STUDY" 3).1 (by decide),
   (get_planner_case_insensitive "weird" 3).2.2.2.mpr (by decide)⟩

instance {ε α : Type} [DecidableEq ε] [DecidableEq α] : DecidableEq (Except ε α)
  | Except.ok a, Except.ok b =>
    if h : a = b then isTrue (by rw [h]) else isFalse (by simp [h])
  | Except.ok _, Except.error _ => isFalse (by simp)
  | Except.error _, Except.ok _ => isFalse (by simp)
  | Except.error e, Except.error f =>
    if h : e = f then isTrue (by rw [h]) else isFalse (by simp [h])

/-- C1: evaluation of the entry point at the repository's own failing test
input (`test_generate_daily_plan_requires_valid_window` uses
`start="10:00"`, `end="09:00"`, i.e. `start_dt = 600`, `end_dt = 540`
minutes): `generate_daily_plan` performs no window validation and returns
an ordinary (empty) plan instead of signalling a configuration error, and
the scheduler is invoked with `day_end < day_start`. -/
theorem generate_daily_plan_accepts_inverted_window :
    generate_daily_plan 0 [{ name := "Study", duration := some 30, category := some "study" }]
        "study" 3 600 540 =
      Except.ok [] := by
  have h : get_planner "study" 3 = Except.ok PlannerChoice.study := by decide
  unfold generate_daily_plan
  rw [h]
  simp [Planner.generate, StudyPlanner.generate, Planner._sort_tasks,
    SequentialScheduler.schedule, seqGo, effDuration]

/-- Spec-side restatement of the C4 scoring formula, following the claim's
words: `4*urgency + 3*importance + 2*difficulty - 0.3*duration_hours`, plus
a flat `+10` if `must_do_today`, with `urgency = 1 / max(days_until_deadline, 1)`
when a deadline is present and `0` otherwise, importance the category
weight `study=3.0, recovery=2.0, admin=1.0, other/unset=1.0`, difficulty
defaulting to `3` and duration to `0` when missing. -/
def DeadlinePriority.score_spec (today : Int) (task : Task) : ℚ :=
  let urgency : ℚ :=
    match task.deadline with
    | some deadline => 1 / ((max (deadline - today) 1 : Int) : ℚ)
    | none => 0
  let importance : ℚ :=
    if task.category = some "study" then 3
    else if task.category = some "recovery" then 2
    else 1
  let difficulty : ℚ :=
    match task.difficulty with
    | some d => (d : ℚ)
    | none => 3
  let duration : Int :=
    match task.duration with
    | some v => v
    | none => 0
  4 * urgency + 3 * importance + 2 * difficulty - (3 / 10) * ((duration : ℚ) / 60)
    + (if task.must_do_today then 10 else 0)

/-- The dict lookup agrees with the claim's category-weight table
(all categories other than "study" and "recovery" weigh 1.0). -/
theorem category_weights_cases (c : Option String) :
    category_weights c =
      if c = some "study" then 3 else if c = some "recovery" then 2 else 1 := by
  unfold category_weights
  split <;> simp_all

/-- C4 counterexample: a syntactically valid task with a present
`difficulty = 0` (no deadline, no category, no duration, no must-do flag).
The claim's formula uses the present value 0 and gives
`3*1 + 2*0 = 3`, but the code's `getattr(task, "difficulty", 3) or 3`
treats the falsy 0 as missing and scores `3*1 + 2*3 = 9`. -/
theorem deadline_priority_score_counterexample :
    DeadlinePriority.score 0 { name := "Z", difficulty := some 0 } ≠
      DeadlinePriority.score_spec 0 { name := "Z", difficulty := some 0 } := by
  simp only [DeadlinePriority.score, DeadlinePriority.score_spec, effDifficulty, effDuration,
    category_weights]
  norm_num
  rw [if_neg (by simp), if_neg (by simp)]
  norm_num

/-- Amended (C4) spec-side formula: identical to the claim's formula except
that difficulty defaults to 3 not only when missing but also when present
as the falsy value 0 (Python `or`-coercion in
`getattr(task, "difficulty", 3) or 3`). -/
def DeadlinePriority.score_spec_amended (today : Int) (task : Task) : ℚ :=
  let urgency : ℚ :=
    match task.deadline with
    | some deadline => 1 / ((max (deadline - today) 1 : Int) : ℚ)
    | none => 0
  let importance : ℚ :=
    if task.category = some "study" then 3
    else if task.category = some "recovery" then 2
    else 1
  let difficulty : ℚ :=
    match task.difficulty with
    | some d => if d = 0 then 3 else (d : ℚ)
    | none => 3
  let duration : Int :=
    match task.duration with
    | some v => v
    | none => 0
  4 * urgency + 3 * importance + 2 * difficulty - (3 / 10) * ((duration : ℚ) / 60)
    + (if task.must_do_today then 10 else 0)

/-- C4 (amended): for every syntactically valid `Task`,
`DeadlinePriority.score` equals `4*urgency + 3*importance + 2*difficulty -
0.3*duration_hours`, plus a flat `+10` if `must_do_today` is set, where
urgency is `1 / max(days_until_deadline, 1)` with a deadline and 0 without,
importance is the category weight (study=3.0, recovery=2.0, admin=1.0,
other/unset=1.0), duration defaults to 0 when missing, and difficulty
defaults to 3 when missing or when equal to the falsy value 0. -/
theorem deadline_priority_score_formula_amended (today : Int) (task : Task) :
    DeadlinePriority.score today task = DeadlinePriority.score_spec_amended today task := by
  unfold DeadlinePriority.score DeadlinePriority.score_spec_amended effDifficulty effDuration
  rw [category_weights_cases]
  cases h : task.difficulty with
  | none =>
    cases task.must_do_today <;> cases task.deadline <;> cases task.duration <;>
      simp
  | some d =>
    by_cases hd : d = 0
    · subst hd
      cases task.must_do_today <;> cases task.deadline <;> cases task.duration <;>
        simp
    · simp only [if_neg hd]
      cases task.must_do_today <;> cases task.deadline <;> cases task.duration <;>
        simp

/-- Run lemma for the sequential loop: it only appends blocks, every
appended block ends by `day_end`, and the appended blocks carry a prefix
of the positive-duration tasks, in order. -/
theorem seqGo_run (de : Int) :
    ∀ (ts : List Task) (start : Int) (blocks : List PlannedBlock),
      ∃ news, seqGo de ts start blocks = blocks ++ news ∧
        (∀ x ∈ news, x.stop ≤ de) ∧
        news.map PlannedBlock.task <+: ts.filter (fun t => decide (0 < effDuration t)) := by
  intro ts
  induction ts with
  | nil => intro start blocks; exact ⟨[], by simp [seqGo]⟩
  | cons t ts ih =>
    intro start blocks
    by_cases h0 : effDuration t ≤ 0
    · obtain ⟨news, h1, h2, h3⟩ := ih start blocks
      refine ⟨news, ?_, h2, ?_⟩
      · simpa [seqGo, h0] using h1
      · simpa [List.filter_cons, show ¬(0 < effDuration t) by omega] using h3
    · by_cases hfit : start + effDuration t > de
      · refine ⟨[], by simp [seqGo, h0, hfit], by simp, ?_⟩
        exact List.nil_prefix
      · obtain ⟨news, h1, h2, h3⟩ :=
          ih (start + effDuration t) (blocks ++ [⟨t, start, start + effDuration t⟩])
        refine ⟨⟨t, start, start + effDuration t⟩ :: news, ?_, ?_, ?_⟩
        · rw [seqGo]
          simp only [h0, if_false, hfit, if_false, if_neg h0, if_neg hfit]
          simpa using h1
        · intro x hx
          rcases List.mem_cons.mp hx with hx | hx
          · simp [hx]; omega
          · exact h2 x hx
        · rw [List.filter_cons, if_pos (by simpa using show (0 : Int) < effDuration t by omega)]
          obtain ⟨rest, hrest⟩ := h3
          exact ⟨rest, by simp [hrest]⟩

/-- C2 counterexample: with a zero-duration task ahead of a positive one,
the emitted blocks carry `[Todo]`, which is not a prefix of the input
sequence `[Zero, Todo]` (the spec's own §4.2 notes zero/negative-duration
tasks are skipped, so "prefix of the input" fails in general). -/
theorem sequential_prefix_counterexample :
    ¬ ((SequentialScheduler.schedule
          [{ name := "Zero", duration := some 0 }, { name := "Todo", duration := some 30 }]
          0 60).map PlannedBlock.task <+:
        [{ name := "Zero", duration := some 0 }, { name := "Todo", duration := some 30 }]) := by
  decide

/-- C2 (amended): SequentialScheduler never emits a block whose end
exceeds `day_end`, and the task sequence carried by the returned blocks is
a prefix (possibly truncated, never reordered) of the input task sequence
with zero/negative-duration tasks removed. -/
theorem sequential_schedule_bound_and_prefix (tasks : List Task) (ds de : Int) :
    (∀ x ∈ SequentialScheduler.schedule tasks ds de, x.stop ≤ de) ∧
    (SequentialScheduler.schedule tasks ds de).map PlannedBlock.task <+:
      tasks.filter (fun t => decide (0 < effDuration t)) := by
  obtain ⟨news, h1, h2, h3⟩ := seqGo_run de tasks ds []
  unfold SequentialScheduler.schedule
  rw [h1]
  simpa using ⟨h2, h3⟩

/-- Witness for C2 (amended) at a concrete run: two tasks, the second of
which does not fit. -/
theorem sequential_schedule_bound_and_prefix_witness :
    (∀ x ∈ SequentialScheduler.schedule
        [{ name := "Short", duration := some 30 }, { name := "Long", duration := some 45 }]
        540 590, x.stop ≤ 590) ∧
    (SequentialScheduler.schedule
        [{ name := "Short", duration := some 30 }, { name := "Long", duration := some 45 }]
        540 590).map PlannedBlock.task <+:
      [({ name := "Short", duration := some 30 } : Task),
       { name := "Long", duration := some 45 }].filter (fun t => decide (0 < effDuration t)) :=
  sequential_schedule_bound_and_prefix _ 540 590

/-- The descending comparison used by `_sort_tasks` is transitive. -/
theorem sortLE_trans (score : Task → ℚ) :
    ∀ (a b c : Task), (fun x y => decide (score y ≤ score x)) a b →
      (fun x y => decide (score y ≤ score x)) b c →
      (fun x y => decide (score y ≤ score x)) a c := by
  intro a b c hab hbc
  simp only [decide_eq_true_eq] at *
  exact le_trans hbc hab

/-- The descending comparison used by `_sort_tasks` is total. -/
theorem sortLE_total (score : Task → ℚ) :
    ∀ (a b : Task), (fun x y => decide (score y ≤ score x)) a b ||
      (fun x y => decide (score y ≤ score x)) b a := by
  intro a b
  simp only [Bool.or_eq_true, decide_eq_true_eq]
  exact le_total (score b) (score a)

/-- C6: every sort a Planner performs via `_sort_tasks` is a
descending-by-score stable sort: the output is a permutation of the input,
scores are non-increasing along the output, and two tasks with equal
scores that occur in some relative order in the input (as the sublist
`[a, b]`) occur in that same relative order in the output. -/
theorem sort_tasks_stable_descending (score : Task → ℚ) (tasks : List Task)
    (a b : Task) (hsub : List.Sublist [a, b] tasks) (heq : score a = score b) :
    (Planner._sort_tasks score tasks).Perm tasks ∧
    (Planner._sort_tasks score tasks).Pairwise (fun x y => score y ≤ score x) ∧
    List.Sublist [a, b] (Planner._sort_tasks score tasks) := by
  refine ⟨List.mergeSort_perm tasks _, ?_, ?_⟩
  · exact (List.sorted_mergeSort (sortLE_trans score) (sortLE_total score) tasks).imp
      (fun h => by simpa using h)
  · exact List.pair_sublist_mergeSort (sortLE_trans score) (sortLE_total score)
      (by simp [heq]) hsub

/-- Witness for C6: two equal-score tasks (same attributes except name)
keep their input order, on a concrete three-task list. -/
theorem sort_tasks_stable_descending_witness :
    (Planner._sort_tasks (fun t => (effDuration t : ℚ))
        [{ name := "u", duration := some 5 }, { name := "v", duration := some 5 },
         { name := "w", duration := some 9 }]).Perm
      [{ name := "u", duration := some 5 }, { name := "v", duration := some 5 },
       { name := "w", duration := some 9 }] ∧
    (Planner._sort_tasks (fun t => (effDuration t : ℚ))
        [{ name := "u", duration := some 5 }, { name := "v", duration := some 5 },
         { name := "w", duration := some 9 }]).Pairwise
      (fun x y => (effDuration y : ℚ) ≤ (effDuration x : ℚ)) ∧
    List.Sublist
      [({ name := "u", duration := some 5 } : Task), { name := "v", duration := some 5 }]
      (Planner._sort_tasks (fun t => (effDuration t : ℚ))
        [{ name := "u", duration := some 5 }, { name := "v", duration := some 5 },
         { name := "w", duration := some 9 }]) :=
  sort_tasks_stable_descending (fun t => (effDuration t : ℚ)) _ _ _
    (by decide) (by norm_num [effDuration])

/-- Spec-side combination rule for C5, following the claim's words: insert
one recovery task after every 2 regular tasks, consuming recovery tasks in
their original relative order; leftover recovery tasks are appended at the
end (and once fewer than 2 regular tasks remain there are no further
insertion points). -/
def interleaveEvery2 : List Task → List Task → List Task
  | regs, [] => regs
  | r1 :: r2 :: rs, c :: cs => r1 :: r2 :: c :: interleaveEvery2 rs cs
  | regs, recs => regs ++ recs

/-- The indexed interleaving loop of `BalancedPlanner.generate` computes
the spec-side combination rule (stated for any even loop counter and any
position into the recovery list). -/
theorem balancedGo_eq_interleave (recs : List Task) :
    ∀ (n : ℕ) (regs : List Task), regs.length ≤ n → ∀ (i idx : ℕ), i % 2 = 0 →
      balancedGo recs regs i idx = interleaveEvery2 regs (recs.drop idx) := by
  intro n
  induction n with
  | zero =>
    intro regs hlen i idx _
    have : regs = [] := List.eq_nil_of_length_eq_zero (Nat.le_zero.mp hlen)
    subst this
    cases h : recs.drop idx <;> simp [balancedGo, interleaveEvery2, h]
  | succ n ih =>
    intro regs hlen i idx hi
    rcases regs with _ | ⟨r1, _ | ⟨r2, rs⟩⟩
    · cases h : recs.drop idx <;> simp [balancedGo, interleaveEvery2, h]
    · have hcond : ¬((i + 1) % 2 = 0 ∧ idx < recs.length) := by omega
      rw [balancedGo, if_neg hcond, balancedGo]
      cases h : recs.drop idx <;> simp [interleaveEvery2, h]
    · have hcond1 : ¬((i + 1) % 2 = 0 ∧ idx < recs.length) := by omega
      rw [balancedGo, if_neg hcond1, balancedGo]
      by_cases hidx : idx < recs.length
      · rw [if_pos ⟨by omega, hidx⟩]
        rw [ih rs (by simp at hlen; omega) (i + 1 + 1) (idx + 1) (by omega)]
        rw [List.drop_eq_getElem_cons hidx, List.getD_eq_getElem recs default hidx]
        simp [interleaveEvery2]
      · rw [if_neg (by omega)]
        rw [ih rs (by simp at hlen; omega) (i + 1 + 1) idx (by omega)]
        rw [List.drop_eq_nil_of_le (by omega)]
        simp [interleaveEvery2]

/-- C5: `BalancedPlanner.generate` partitions the input on
`category == "recovery"`, sorts only the regular part descending by the
configured strategy, combines per the every-2 interleaving rule consuming
recovery tasks in original order with leftovers appended, and delegates
exactly that combined sequence to the scheduler; in particular, for input
`[A, B, C, R]` with regular scores strictly descending `A, B, C` and one
recovery task `R`, the combined sequence is `[A, B, R, C]`. -/
theorem balanced_planner_combination (score : Task → ℚ)
    (scheduler : List Task → Int → Int → List PlannedBlock)
    (tasks : List Task) (ds de : Int) (A B C R : Task)
    (hAB : score B < score A) (hBC : score C < score B)
    (hA : (A.category == some "recovery") = false)
    (hB : (B.category == some "recovery") = false)
    (hC : (C.category == some "recovery") = false)
    (hR : (R.category == some "recovery") = true) :
    BalancedPlanner.generate score scheduler tasks ds de =
      scheduler
        (interleaveEvery2
          (Planner._sort_tasks score (tasks.filter (fun t => !(t.category == some "recovery"))))
          (tasks.filter (fun t => t.category == some "recovery")))
        ds de ∧
    BalancedPlanner.combined score [A, B, C, R] = [A, B, R, C] := by
  constructor
  · unfold BalancedPlanner.generate BalancedPlanner.combined
    rw [balancedGo_eq_interleave _ _ _ (le_refl _) 0 0 (by omega)]
    rfl
  · have hrec : ([A, B, C, R].filter (fun t => t.category == some "recovery")) = [R] := by
      simp [List.filter_cons, hA, hB, hC, hR]
    have hreg : ([A, B, C, R].filter (fun t => !(t.category == some "recovery"))) = [A, B, C] := by
      simp [List.filter_cons, hA, hB, hC, hR]
    have h1 : score B ≤ score A := le_of_lt hAB
    have h2 : score C ≤ score B := le_of_lt hBC
    have h3 : score C ≤ score A := le_trans h2 h1
    have hsort : Planner._sort_tasks score [A, B, C] = [A, B, C] :=
      List.mergeSort_of_sorted (by simp [List.pairwise_cons, h1, h2, h3])
    unfold BalancedPlanner.combined
    simp only [hrec, hreg, hsort]
    rw [balancedGo_eq_interleave _ _ _ (le_refl _) 0 0 (by omega)]
    simp [interleaveEvery2]

/-- Witness for C5: concrete regular tasks with strictly descending scores
and one recovery task combine to `[A, B, R, C]`. -/
theorem balanced_planner_combination_witness :
    BalancedPlanner.generate (fun t => -(effDuration t : ℚ)) (fun _ _ _ => []) [] 0 0 =
      (fun _ _ _ => ([] : List PlannedBlock))
        (interleaveEvery2
          (Planner._sort_tasks (fun t => -(effDuration t : ℚ))
            (([] : List Task).filter (fun t => !(t.category == some "recovery"))))
          (([] : List Task).filter (fun t => t.category == some "recovery"))) 0 0 ∧
    BalancedPlanner.combined (fun t => -(effDuration t : ℚ))
        [{ name := "A", duration := some 1 }, { name := "B", duration := some 2 },
         { name := "C", duration := some 3 },
         { name := "R", duration := some 4, category := some "recovery" }] =
      [{ name := "A", duration := some 1 }, { name := "B", duration := some 2 },
       { name := "R", duration := some 4, category := some "recovery" },
       { name := "C", duration := some 3 }] :=
  balanced_planner_combination _ _ [] 0 0 _ _ _ _
    (by norm_num [effDuration]) (by norm_num [effDuration])
    (by decide) (by decide) (by decide) (by decide)

/-- If the remaining minutes are already exhausted, the pomodoro loop exits
without emitting anything (the `while` guard fails). -/
theorem pomLoop_exit (w b de : Int) (task : Task) (fuel : ℕ)
    (rem start : Int) (blocks : List PlannedBlock) (h : rem ≤ 0) :
    pomLoop w b de task fuel rem start blocks = some (blocks, start, false) := by
  cases fuel <;> simp [pomLoop, h]

/-- If the next work block does not fit, the pomodoro loop returns the
blocks accumulated so far (the source's first `return blocks`). -/
theorem pomLoop_abort_block (w b de : Int) (task : Task) (fuel : ℕ)
    (rem start : Int) (blocks : List PlannedBlock)
    (h0 : 0 < rem) (h : de < start + w) :
    pomLoop w b de task (fuel + 1) rem start blocks = some (blocks, start, true) := by
  rw [pomLoop, if_neg (by omega), if_pos (by omega)]

/-- A work block fits, the task still has time left, but the following
break does not fit: emit the block and return (the second `return blocks`). -/
theorem pomLoop_abort_break (w b de : Int) (task : Task) (fuel : ℕ)
    (rem start : Int) (blocks : List PlannedBlock)
    (h0 : 0 < rem) (hfit : start + w ≤ de) (hrem : 0 < rem - w) (h : de < start + w + b) :
    pomLoop w b de task (fuel + 1) rem start blocks =
      some (blocks ++ [⟨task, start, start + w⟩], start + w, true) := by
  rw [pomLoop, if_neg (by omega), if_neg (by omega), if_pos (by omega), if_pos (by omega)]

/-- A work block fits and both it and the following break leave room: emit
the block, consume the break, and continue with the remainder. -/
theorem pomLoop_step_break (w b de : Int) (task : Task) (fuel : ℕ)
    (rem start : Int) (blocks : List PlannedBlock)
    (h0 : 0 < rem) (hfit : start + w ≤ de) (hrem : 0 < rem - w) (hbr : start + w + b ≤ de) :
    pomLoop w b de task (fuel + 1) rem start blocks =
      pomLoop w b de task fuel (rem - w) (start + w + b)
        (blocks ++ [⟨task, start, start + w⟩]) := by
  rw [pomLoop, if_neg (by omega), if_neg (by omega), if_pos (by omega), if_neg (by omega)]

/-- A work block fits and finishes the task: emit it and exit the loop with
the cursor at the block's end (no break is taken). -/
theorem pomLoop_step_done (w b de : Int) (task : Task) (fuel : ℕ)
    (rem start : Int) (blocks : List PlannedBlock)
    (h0 : 0 < rem) (hfit : start + w ≤ de) (hrem : rem - w ≤ 0) :
    pomLoop w b de task (fuel + 1) rem start blocks =
      some (blocks ++ [⟨task, start, start + w⟩], start + w, false) := by
  rw [pomLoop, if_neg (by omega), if_neg (by omega), if_neg (by omega)]
  exact pomLoop_exit w b de task fuel (rem - w) (start + w) _ hrem

/-- Characterization of a completed inner-loop run: it only appends blocks;
every appended block belongs to the current task, is exactly `w` long and
ends by `de`; the first appended block starts at the entry cursor;
consecutive appended blocks are separated by exactly the break `b`; when
the loop exits normally (no `return`) it has emitted at least one block if
it had remaining time, and leaves the cursor at the last emitted block's
end (or unchanged if nothing was emitted). -/
theorem pomLoop_run (w b de : Int) (task : Task) :
    ∀ (fuel : ℕ) (rem start : Int) (blocks : List PlannedBlock)
      (out : List PlannedBlock × Int × Bool),
      pomLoop w b de task fuel rem start blocks = some out →
      ∃ news,
        out.1 = blocks ++ news ∧
        (∀ x ∈ news, x.task = task ∧ x.stop = x.start + w ∧ x.stop ≤ de) ∧
        (∀ x, news.head? = some x → x.start = start) ∧
        List.Chain' (fun x y => y.task = x.task ∧ y.start = x.stop + b) news ∧
        (out.2.2 = false → 0 < rem → news ≠ []) ∧
        (out.2.2 = false → out.2.1 = ((news.getLast?.map PlannedBlock.stop).getD start)) := by
  intro fuel
  induction fuel with
  | zero =>
    intro rem start blocks out hout
    by_cases h0 : rem ≤ 0
    · rw [pomLoop_exit w b de task 0 rem start blocks h0] at hout
      replace hout := Option.some.inj hout
      subst hout
      exact ⟨[], by simp, by simp, by simp, by simp, fun _ h => absurd h (by omega), by simp⟩
    · simp [pomLoop, h0] at hout
  | succ fuel ih =>
    intro rem start blocks out hout
    by_cases h0 : rem ≤ 0
    · rw [pomLoop_exit w b de task (fuel + 1) rem start blocks h0] at hout
      replace hout := Option.some.inj hout
      subst hout
      exact ⟨[], by simp, by simp, by simp, by simp, fun _ h => absurd h (by omega), by simp⟩
    · by_cases hfit : de < start + w
      · rw [pomLoop_abort_block w b de task fuel rem start blocks (by omega) hfit] at hout
        replace hout := Option.some.inj hout
        subst hout
        exact ⟨[], by simp, by simp, by simp, by simp, by simp, by simp⟩
      · by_cases hrem2 : 0 < rem - w
        · by_cases hbr : de < start + w + b
          · rw [pomLoop_abort_break w b de task fuel rem start blocks (by omega) (by omega)
              hrem2 hbr] at hout
            replace hout := Option.some.inj hout
            subst hout
            refine ⟨[⟨task, start, start + w⟩], by simp, ?_, by simp, by simp, by simp, by simp⟩
            intro x hx
            rcases List.mem_singleton.mp hx with rfl
            exact ⟨rfl, rfl, show start + w ≤ de by omega⟩
          · rw [pomLoop_step_break w b de task fuel rem start blocks (by omega) (by omega)
              hrem2 (by omega)] at hout
            obtain ⟨news', e1, e2, e3, e4, e5, e6⟩ := ih (rem - w) (start + w + b)
              (blocks ++ [⟨task, start, start + w⟩]) out hout
            refine ⟨⟨task, start, start + w⟩ :: news', by simpa using e1, ?_, by simp, ?_, ?_, ?_⟩
            · intro x hx
              rcases List.mem_cons.mp hx with rfl | hx
              · exact ⟨rfl, rfl, show start + w ≤ de by omega⟩
              · exact e2 x hx
            · rw [List.chain'_cons']
              refine ⟨?_, e4⟩
              intro y hy
              have hy' := List.mem_of_mem_head? hy
              refine ⟨(e2 y hy').1, ?_⟩
              rw [e3 y hy]
            · intro _ _
              simp
            · intro hfalse
              have hne : news' ≠ [] := e5 hfalse hrem2
              rw [e6 hfalse]
              rcases news' with _ | ⟨c, cs⟩
              · exact absurd rfl hne
              · rcases hlast : (c :: cs).getLast? with _ | z
                · rw [List.getLast?_eq_none_iff] at hlast
                  exact absurd hlast (by simp)
                · simp [hlast]
        · rw [pomLoop_step_done w b de task fuel rem start blocks (by omega) (by omega)
            (by omega)] at hout
          replace hout := Option.some.inj hout
          subst hout
          refine ⟨[⟨task, start, start + w⟩], by simp, ?_, by simp, by simp, by simp, by simp⟩
          intro x hx
          rcases List.mem_singleton.mp hx with rfl
          exact ⟨rfl, rfl, show start + w ≤ de by omega⟩

/-- Characterization of a completed outer-loop run over a list of pairwise
distinct tasks: only appends blocks; every appended block is `w` long,
ends by `de`, and carries one of the scheduled tasks; the first appended
block starts at the entry cursor; and consecutive appended blocks either
continue the same task (separated by exactly the break `b`) or switch
task (back to back, no gap). -/
theorem pomGo_run (w b de : Int) :
    ∀ (ts : List Task) (start : Int) (blocks : List PlannedBlock) (out : List PlannedBlock),
      List.Pairwise (fun x y => x ≠ y) ts →
      pomGo w b de ts start blocks = some out →
      ∃ news,
        out = blocks ++ news ∧
        (∀ x ∈ news, x.task ∈ ts ∧ x.stop = x.start + w ∧ x.stop ≤ de) ∧
        (∀ x, news.head? = some x → x.start = start) ∧
        List.Chain' (fun x y =>
          (y.task = x.task ∧ y.start = x.stop + b) ∨
          (y.task ≠ x.task ∧ y.start = x.stop)) news := by
  intro ts
  induction ts with
  | nil =>
    intro start blocks out _ hout
    rw [pomGo] at hout
    replace hout := Option.some.inj hout
    exact ⟨[], by simp [hout], by simp, by simp, by simp⟩
  | cons t ts ih =>
    intro start blocks out hpw hout
    rw [pomGo] at hout
    by_cases hdur : effDuration t ≤ 0
    · rw [if_pos hdur] at hout
      obtain ⟨news, g1, g2, g3, g4⟩ := ih start blocks out (List.pairwise_cons.mp hpw).2 hout
      exact ⟨news, g1, fun x hx => ⟨List.mem_cons_of_mem t (g2 x hx).1, (g2 x hx).2⟩, g3, g4⟩
    · rw [if_neg hdur] at hout
      rcases hloop : pomLoop w b de t (effDuration t).toNat (effDuration t) start blocks
        with _ | ⟨blocks₁, cur, returned⟩
      · rw [hloop] at hout; simp at hout
      · rw [hloop] at hout
        simp only at hout
        obtain ⟨news₁, f1, f2, f3, f4, f5, f6⟩ := pomLoop_run w b de t _ _ _ _ _ hloop
        simp only at f1 f5 f6
        cases returned with
        | true =>
          simp only [if_pos] at hout
          replace hout := Option.some.inj hout
          refine ⟨news₁, by rw [← hout, f1], ?_, f3, ?_⟩
          · intro x hx
            exact ⟨by rw [(f2 x hx).1]; exact List.mem_cons_self t ts, (f2 x hx).2⟩
          · exact f4.imp (fun _ _ h => Or.inl ⟨h.1, h.2⟩)
        | false =>
          simp only [Bool.false_eq_true, if_false] at hout
          have hne₁ : news₁ ≠ [] := f5 rfl (by omega)
          obtain ⟨news₂, g1, g2, g3, g4⟩ := ih cur blocks₁ out (List.pairwise_cons.mp hpw).2 hout
          refine ⟨news₁ ++ news₂, by rw [g1, f1, List.append_assoc], ?_, ?_, ?_⟩
          · intro x hx
            rcases List.mem_append.mp hx with hx | hx
            · exact ⟨by rw [(f2 x hx).1]; exact List.mem_cons_self t ts, (f2 x hx).2⟩
            · exact ⟨List.mem_cons_of_mem t (g2 x hx).1, (g2 x hx).2⟩
          · intro x hx
            rcases news₁ with _ | ⟨c, cs⟩
            · exact absurd rfl hne₁
            · exact f3 x (by simpa using hx)
          · refine List.Chain'.append (f4.imp (fun _ _ h => Or.inl ⟨h.1, h.2⟩)) g4 ?_
            intro x hx y hy
            have hxm : x ∈ news₁ := List.mem_of_mem_getLast? hx
            have hym : y ∈ news₂ := List.mem_of_mem_head? hy
            refine Or.inr ⟨?_, ?_⟩
            · rw [(f2 x hxm).1]
              have : y.task ∈ ts := (g2 y hym).1
              exact fun hcontra => (List.pairwise_cons.mp hpw).1 y.task this hcontra.symm
            · rw [g3 y hy, f6 rfl, hx]
              simp

/-- C3: in `PomodoroScheduler.schedule` (run over pairwise distinct tasks,
so that a block's task identifies its originating loop iteration), a break
gap of exactly `break_minutes` — not represented as a block — separates
two consecutive work blocks precisely when they continue the same task,
i.e. when the current task's remaining time was still positive after the
earlier block; when the earlier task was exhausted (remaining ≤ 0) the
next task's block starts back-to-back with no gap; and the call never
emits a block ending after `day_end` — a work block or break that would
cross `day_end` makes it return its partial result immediately. -/
theorem pomodoro_break_gaps (w b : Int) (tasks : List Task) (ds de : Int)
    (blocks : List PlannedBlock)
    (hdist : List.Pairwise (fun x y => x ≠ y) tasks)
    (hrun : PomodoroScheduler.schedule w b tasks ds de = some blocks) :
    (∀ x ∈ blocks, x.stop ≤ de) ∧
    List.Chain' (fun x y =>
      (y.task = x.task → y.start = x.stop + b) ∧
      (y.task ≠ x.task → y.start = x.stop)) blocks := by
  obtain ⟨news, h1, h2, _, h4⟩ := pomGo_run w b de tasks ds [] blocks hdist hrun
  rw [List.nil_append] at h1
  subst h1
  refine ⟨fun x hx => (h2 x hx).2.2, ?_⟩
  refine h4.imp ?_
  intro x y h
  rcases h with ⟨he, hg⟩ | ⟨hne, hg⟩
  · exact ⟨fun _ => hg, fun hcontra => absurd he hcontra⟩
  · exact ⟨fun hcontra => absurd hcontra hne, fun _ => hg⟩

/-- Witness for C3 on a concrete run (work 25, break 5): task A (30 min)
yields two blocks separated by the 5-minute break; task B follows A's
second block with no gap because A's remaining time was exhausted. -/
theorem pomodoro_break_gaps_witness :
    (∀ x ∈ [({ task := { name := "A", duration := some 30 }, start := 0, stop := 25 } :
        PlannedBlock),
      { task := { name := "A", duration := some 30 }, start := 30, stop := 55 },
      { task := { name := "B", duration := some 10 }, start := 55, stop := 80 }],
      x.stop ≤ (200 : Int)) ∧
    List.Chain' (fun x y =>
      (y.task = x.task → y.start = x.stop + 5) ∧
      (y.task ≠ x.task → y.start = x.stop))
      [({ task := { name := "A", duration := some 30 }, start := 0, stop := 25 } :
          PlannedBlock),
       { task := { name := "A", duration := some 30 }, start := 30, stop := 55 },
       { task := { name := "B", duration := some 10 }, start := 55, stop := 80 }] :=
  pomodoro_break_gaps 25 5
    [{ name := "A", duration := some 30 }, { name := "B", duration := some 10 }] 0 200 _
    (by decide) (by decide)

/-- C7: a single task of duration 50 in any window of at least 60 minutes,
under the default parameters (work 25, break 5), yields exactly two
25-minute blocks, with the second block starting exactly 30 minutes after
the first block's start. -/
theorem pomodoro_fifty_minute_task (task : Task) (ds de : Int)
    (hdur : effDuration task = 50) (hwin : ds + 60 ≤ de) :
    PomodoroScheduler.schedule 25 5 [task] ds de =
      some [⟨task, ds, ds + 25⟩, ⟨task, ds + 30, ds + 55⟩] := by
  unfold PomodoroScheduler.schedule
  rw [pomGo, hdur]
  rw [if_neg (by norm_num)]
  rw [show ((50 : Int).toNat) = 49 + 1 from rfl]
  rw [pomLoop_step_break 25 5 de task 49 50 ds [] (by norm_num) (by omega) (by norm_num)
    (by omega)]
  rw [show (49 : ℕ) = 48 + 1 from rfl]
  rw [pomLoop_step_done 25 5 de task 48 (50 - 25) (ds + 25 + 5) _ (by norm_num) (by omega)
    (by norm_num)]
  simp only [pomGo, List.nil_append, Bool.false_eq_true, if_false]
  norm_num
  constructor <;> ring

/-- Witness for C7 at the concrete window 0-60. -/
theorem pomodoro_fifty_minute_task_witness :
    PomodoroScheduler.schedule 25 5 [{ name := "P", duration := some 50 }] 0 60 =
      some [⟨{ name := "P", duration := some 50 }, 0, 0 + 25⟩,
            ⟨{ name := "P", duration := some 50 }, 0 + 30, 0 + 55⟩] :=
  pomodoro_fifty_minute_task { name := "P", duration := some 50 } 0 60 rfl (by norm_num)

/-- Number of work blocks the pomodoro loop emits for a task with `rem`
remaining minutes and work length `w` (both positive): `ceil(rem / w)`. -/
def pomChunks (rem w : Int) : ℕ :=
  (rem.toNat + w.toNat - 1) / w.toNat

/-- A task no longer than one work block needs exactly one chunk. -/
theorem pomChunks_one (rem w : Int) (h0 : 0 < rem) (hw : 1 ≤ w) (hle : rem ≤ w) :
    pomChunks rem w = 1 := by
  unfold pomChunks
  exact Nat.div_eq_of_lt_le (by omega) (by omega)

/-- Chunk-count recurrence: one block then the rest. -/
theorem pomChunks_succ (rem w : Int) (hw : 1 ≤ w) (hlt : w < rem) :
    pomChunks rem w = pomChunks (rem - w) w + 1 := by
  unfold pomChunks
  rw [show rem.toNat + w.toNat - 1 = ((rem - w).toNat + w.toNat - 1) + w.toNat by omega]
  exact Nat.add_div_right _ (by omega)

/-- At least one chunk for a positive-duration task. -/
theorem pomChunks_pos (rem w : Int) (h0 : 0 < rem) (hw : 1 ≤ w) :
    1 ≤ pomChunks rem w := by
  unfold pomChunks
  rw [Nat.le_div_iff_mul_le (by omega)]
  omega

/-- Completed-run count: with enough window room for `pomChunks rem w` work
blocks and the `pomChunks rem w - 1` breaks between them, the inner loop
finishes the task normally and emits exactly that many blocks. -/
theorem pomLoop_count (w b de : Int) (task : Task) (hw : 1 ≤ w) (hb : 0 ≤ b) :
    ∀ (fuel : ℕ) (rem start : Int) (blocks : List PlannedBlock),
      0 < rem → rem.toNat ≤ fuel →
      start + (pomChunks rem w : Int) * w + ((pomChunks rem w : Int) - 1) * b ≤ de →
      ∃ news cur,
        pomLoop w b de task fuel rem start blocks = some (blocks ++ news, cur, false) ∧
        news.length = pomChunks rem w := by
  intro fuel
  induction fuel with
  | zero =>
    intro rem start blocks h0 hfuel _
    exact absurd hfuel (by omega)
  | succ fuel ih =>
    intro rem start blocks h0 hfuel hspace
    by_cases hle : rem ≤ w
    · have hc : pomChunks rem w = 1 := pomChunks_one rem w h0 hw hle
      rw [hc] at hspace
      push_cast at hspace
      have hfit : start + w ≤ de := by linarith
      refine ⟨[⟨task, start, start + w⟩], start + w, ?_, by simp [hc]⟩
      exact pomLoop_step_done w b de task fuel rem start blocks h0 hfit (by omega)
    · push_neg at hle
      have hc := pomChunks_succ rem w hw hle
      have hc1 : 1 ≤ pomChunks (rem - w) w := pomChunks_pos (rem - w) w (by omega) hw
      set k := pomChunks (rem - w) w with hk
      rw [hc] at hspace
      push_cast at hspace
      have hkw : (0 : Int) ≤ (k : Int) * w := mul_nonneg (by positivity) (by omega)
      have hkb : (0 : Int) ≤ (k : Int) * b := mul_nonneg (by positivity) hb
      have hk1 : (0 : Int) ≤ (k : Int) - 1 := by
        have : (1 : Int) ≤ (k : Int) := by exact_mod_cast hc1
        omega
      have hk1b : (0 : Int) ≤ ((k : Int) - 1) * b := mul_nonneg hk1 hb
      have hfit : start + w ≤ de := by nlinarith
      have hbr : start + w + b ≤ de := by nlinarith
      rw [pomLoop_step_break w b de task fuel rem start blocks h0 hfit (by omega) hbr]
      have hspace' :
          (start + w + b) + (k : Int) * w + ((k : Int) - 1) * b ≤ de := by
        ring_nf
        ring_nf at hspace
        linarith
      obtain ⟨news, cur, hrun, hlen⟩ := ih (rem - w) (start + w + b)
        (blocks ++ [⟨task, start, start + w⟩]) (by omega) (by omega) hspace'
      refine ⟨⟨task, start, start + w⟩ :: news, cur, ?_, by simp [hlen, hc]⟩
      rw [hrun]
      simp [List.append_assoc]

/-- Every block in a completed pomodoro schedule run is exactly `w` long
(given that the accumulated blocks already are). -/
theorem pomGo_block_lengths (w b de : Int) :
    ∀ (ts : List Task) (start : Int) (blocks out : List PlannedBlock),
      pomGo w b de ts start blocks = some out →
      (∀ x ∈ blocks, x.stop = x.start + w) →
      ∀ x ∈ out, x.stop = x.start + w := by
  intro ts
  induction ts with
  | nil =>
    intro start blocks out hout hacc
    rw [pomGo] at hout
    replace hout := Option.some.inj hout
    rw [← hout]
    exact hacc
  | cons t ts ih =>
    intro start blocks out hout hacc
    rw [pomGo] at hout
    by_cases hdur : effDuration t ≤ 0
    · rw [if_pos hdur] at hout
      exact ih start blocks out hout hacc
    · rw [if_neg hdur] at hout
      rcases hloop : pomLoop w b de t (effDuration t).toNat (effDuration t) start blocks
        with _ | ⟨blocks₁, cur, returned⟩
      · rw [hloop] at hout; simp at hout
      · rw [hloop] at hout
        simp only at hout
        obtain ⟨news₁, f1, f2, _, _, _, _⟩ := pomLoop_run w b de t _ _ _ _ _ hloop
        simp only at f1
        have hacc₁ : ∀ x ∈ blocks₁, x.stop = x.start + w := by
          intro x hx
          rw [f1] at hx
          rcases List.mem_append.mp hx with hx | hx
          · exact hacc x hx
          · exact (f2 x hx).2.1
        cases returned with
        | true =>
          simp only [if_pos] at hout
          replace hout := Option.some.inj hout
          rw [← hout]
          exact hacc₁
        | false =>
          simp only [Bool.false_eq_true, if_false] at hout
          exact ih cur blocks₁ out hout hacc₁

/-- C8: every emitted pomodoro work block is exactly `work_minutes` long —
including a task's final chunk when its remaining duration is smaller, so
the total scheduled time for a task can exceed its duration; and a single
task of positive duration `d` produces exactly `ceil(d / work_minutes)`
blocks when the window has room for them and the breaks between them. -/
theorem pomodoro_full_length_blocks (w b : Int) (task : Task) (ds de : Int)
    (hw : 1 ≤ w) (hb : 0 ≤ b) (hd : 0 < effDuration task)
    (hspace : ds + (pomChunks (effDuration task) w : Int) * w
        + ((pomChunks (effDuration task) w : Int) - 1) * b ≤ de) :
    (∀ (tasks : List Task) (ds' de' : Int) (blocks : List PlannedBlock),
        PomodoroScheduler.schedule w b tasks ds' de' = some blocks →
        ∀ x ∈ blocks, x.stop = x.start + w) ∧
    ∃ blocks, PomodoroScheduler.schedule w b [task] ds de = some blocks ∧
      blocks.length = pomChunks (effDuration task) w := by
  constructor
  · intro tasks ds' de' blocks hrun
    exact pomGo_block_lengths w b de' tasks ds' [] blocks hrun (by simp)
  · obtain ⟨news, cur, hrun, hlen⟩ := pomLoop_count w b de task hw hb
      (effDuration task).toNat (effDuration task) ds [] hd (le_refl _) hspace
    refine ⟨news, ?_, hlen⟩
    unfold PomodoroScheduler.schedule
    rw [pomGo, if_neg (by omega), hrun]
    simp [pomGo]

/-- Witness for C8: default parameters, a 50-minute task in the window
0-60 produces `ceil(50/25) = 2` full-length blocks. -/
theorem pomodoro_full_length_blocks_witness :
    (∀ (tasks : List Task) (ds' de' : Int) (blocks : List PlannedBlock),
        PomodoroScheduler.schedule 25 5 tasks ds' de' = some blocks →
        ∀ x ∈ blocks, x.stop = x.start + 25) ∧
    ∃ blocks,
      PomodoroScheduler.schedule 25 5 [{ name := "P", duration := some 50 }] 0 60 =
        some blocks ∧
      blocks.length = pomChunks (effDuration { name := "P", duration := some 50 }) 25 :=
  pomodoro_full_length_blocks 25 5 { name := "P", duration := some 50 } 0 60
    (by norm_num) (by norm_num) (by decide) (by decide)

/-- Fuel sufficiency for the inner loop: with `work_minutes ≥ 1` every
iteration strictly decreases the remaining minutes, so `rem.toNat` fuel
always completes. -/
theorem pomLoop_isSome (w b de : Int) (task : Task) (hw : 1 ≤ w) :
    ∀ (fuel : ℕ) (rem start : Int) (blocks : List PlannedBlock),
      rem.toNat ≤ fuel → (pomLoop w b de task fuel rem start blocks).isSome := by
  intro fuel
  induction fuel with
  | zero =>
    intro rem start blocks hfuel
    rw [pomLoop_exit w b de task 0 rem start blocks (by omega)]
    rfl
  | succ fuel ih =>
    intro rem start blocks hfuel
    by_cases h0 : rem ≤ 0
    · rw [pomLoop_exit w b de task (fuel + 1) rem start blocks h0]; rfl
    · by_cases hfit : de < start + w
      · rw [pomLoop_abort_block w b de task fuel rem start blocks (by omega) hfit]; rfl
      · by_cases hrem2 : 0 < rem - w
        · by_cases hbr : de < start + w + b
          · rw [pomLoop_abort_break w b de task fuel rem start blocks (by omega) (by omega)
              hrem2 hbr]
            rfl
          · rw [pomLoop_step_break w b de task fuel rem start blocks (by omega) (by omega)
              hrem2 (by omega)]
            exact ih (rem - w) (start + w + b) _ (by omega)
        · rw [pomLoop_step_done w b de task fuel rem start blocks (by omega) (by omega)
            (by omega)]
          rfl

/-- With `work_minutes ≥ 1` the whole pomodoro schedule always completes. -/
theorem pomGo_isSome (w b de : Int) (hw : 1 ≤ w) :
    ∀ (ts : List Task) (start : Int) (blocks : List PlannedBlock),
      (pomGo w b de ts start blocks).isSome := by
  intro ts
  induction ts with
  | nil => intro start blocks; rw [pomGo]; rfl
  | cons t ts ih =>
    intro start blocks
    rw [pomGo]
    by_cases hdur : effDuration t ≤ 0
    · rw [if_pos hdur]; exact ih start blocks
    · rw [if_neg hdur]
      have hsome := pomLoop_isSome w b de t hw (effDuration t).toNat (effDuration t) start
        blocks (le_refl _)
      rcases hloop : pomLoop w b de t (effDuration t).toNat (effDuration t) start blocks
        with _ | ⟨blocks₁, cur, returned⟩
      · rw [hloop] at hsome; simp at hsome
      · simp only
        cases returned with
        | true => simp
        | false => simpa using ih cur blocks₁

/-- With `work_minutes = 0` (and `break_minutes = 0`) the source loop makes
no progress: a positive-duration task that fits in the window is rescheduled
forever, so no amount of fuel completes the run. -/
theorem pomLoop_zero_work_none :
    ∀ (fuel : ℕ) (blocks : List PlannedBlock),
      pomLoop 0 0 60 { name := "loop", duration := some 10 } fuel 10 0 blocks = none := by
  intro fuel
  induction fuel with
  | zero => intro blocks; simp [pomLoop]
  | succ fuel ih =>
    intro blocks
    rw [pomLoop, if_neg (by norm_num), if_neg (by norm_num), if_pos (by norm_num),
      if_neg (by norm_num)]
    norm_num
    exact ih _

/-- C10: `PomodoroScheduler.schedule` terminates for every task list and
window when `work_minutes ≥ 1` (each iteration strictly decreases the
remaining minutes); with `work_minutes ≤ 0` termination is not guaranteed:
with `work_minutes = 0`, `break_minutes = 0`, a 10-minute task and the
window 0-60 (where every candidate block fits), the loop never finishes
for any iteration budget. -/
theorem pomodoro_termination :
    (∀ (w b : Int) (tasks : List Task) (ds de : Int), 1 ≤ w →
      ∃ blocks, PomodoroScheduler.schedule w b tasks ds de = some blocks) ∧
    (∀ fuel : ℕ,
      pomLoop 0 0 60 { name := "loop", duration := some 10 } fuel 10 0 [] = none) := by
  constructor
  · intro w b tasks ds de hw
    exact Option.isSome_iff_exists.mp (pomGo_isSome w b de hw tasks ds [])
  · intro fuel
    exact pomLoop_zero_work_none fuel []

/-- Witness for C10: a concrete terminating run with `work_minutes = 25`,
and the concrete non-terminating configuration at fuel 7. -/
theorem pomodoro_termination_witness :
    (∃ blocks,
      PomodoroScheduler.schedule 25 5 [{ name := "P", duration := some 50 }] 0 60 =
        some blocks) ∧
    pomLoop 0 0 60 { name := "loop", duration := some 10 } 7 10 0 [] = none :=
  ⟨pomodoro_termination.1 25 5 _ 0 60 (by norm_num), pomodoro_termination.2 7⟩

end FocusForge
